import Mathlib

/-!
Shallow embedding of the `nois` randomness-derivation library.

The Rust sources embedded here are `src/coinflip.rs`, `src/integers.rs`,
`src/shuffle.rs`, `src/pick.rs`, `src/select_from_weighted.rs` and
`src/sub_randomness.rs`, together with the parts of their external
dependencies that they call into: the `Xoshiro256PlusPlus` generator of the
`rand_xoshiro` crate and the inclusive uniform integer samplers of the
`rand` 0.8 crate (`UniformInt::sample_single_inclusive` used by
`Rng::gen_range`, and `Uniform::new_inclusive` / `UniformInt::sample` used
by `ints_in_range`).

Machine integers are modelled as `Nat` / `Int` with explicit reduction
modulo `2 ^ width`.  The unbounded rejection-sampling loops of the uniform
samplers are modelled with an explicit `fuel` bound; a `none` / `diverged`
outcome stands for the (probability-zero) event that the loop never
accepts.  `usize` is modelled as a 64-bit unsigned integer.
-/

/-! ### Bytes and seeds

A 32-byte randomness seed (`[u8; 32]`) is modelled as a `List Nat` of its
bytes; a byte is reduced mod 256 wherever it is read as a `u8`. -/

/-! ### coinflip (src/coinflip.rs) -/

/-- The `Side` enum of src/coinflip.rs. -/
inductive Side where
  | heads
  | tails
deriving DecidableEq, Repr

/-- `coinflip` from src/coinflip.rs: heads iff the first byte of the
randomness is even, tails otherwise. -/
def coinflip (randomness : List Nat) : Side :=
  if (randomness.headD 0 % 256) % 2 = 0 then Side.heads else Side.tails

/-! ### The PRNG: Xoshiro256PlusPlus (rand_xoshiro crate) -/

/-- The xoshiro256++ generator state: four `u64` words. -/
structure Xo where
  s0 : Nat
  s1 : Nat
  s2 : Nat
  s3 : Nat
deriving DecidableEq, Repr

/-- `u64::rotate_left`. -/
def rotl64 (x k : Nat) : Nat :=
  (((x % 2 ^ 64) <<< k) % 2 ^ 64) ||| ((x % 2 ^ 64) >>> (64 - k))

/-- One step of xoshiro256++ (`RngCore::next_u64` of `Xoshiro256PlusPlus`):
returns the output word and the advanced state. -/
def nextU64 (s : Xo) : Nat × Xo :=
  let result := (rotl64 ((s.s0 + s.s3) % 2 ^ 64) 23 + s.s0) % 2 ^ 64
  let t := (s.s1 <<< 17) % 2 ^ 64
  let s2a := s.s2 ^^^ s.s0
  let s3a := s.s3 ^^^ s.s1
  let s1a := s.s1 ^^^ s2a
  let s0a := s.s0 ^^^ s3a
  let s2b := s2a ^^^ t
  let s3b := rotl64 s3a 45
  (result, ⟨s0a, s1a, s2b, s3b⟩)

/-- `RngCore::next_u32` of `Xoshiro256PlusPlus`: the high 32 bits of the
next 64-bit output. -/
def nextU32 (s : Xo) : Nat × Xo :=
  ((nextU64 s).1 >>> 32, (nextU64 s).2)

/-- The `i`-th little-endian `u64` word of a 32-byte seed
(`read_u64_into` of rand_core). -/
def leU64At (r : List Nat) (i : Nat) : Nat :=
  (List.range 8).foldr (fun k acc => acc * 256 + r.getD (8 * i + k) 0 % 256) 0

/-- Modelled from the spec: `make_prng` lives in the `prng` module, which is
declared in src/lib.rs but whose file is not under src/.  Per §4.1
(SeedExpander) it deterministically expands the 256-bit seed into the
generator state, and src/sub_randomness.rs pins the generator type to
`Xoshiro256PlusPlus`, whose `SeedableRng::from_seed` loads the 32 seed
bytes as four little-endian `u64` words. -/
def make_prng (randomness : List Nat) : Xo :=
  ⟨leU64At randomness 0, leU64At randomness 1, leU64At randomness 2, leU64At randomness 3⟩

/-! ### Integer types

`rand` 0.8 implements uniform sampling for every integer width via one
macro, parameterized by the sampled type `$ty`, its unsigned counterpart
`$unsigned` and a widened unsigned type `$u_large` (`u32` for widths up to
32, otherwise the width itself).  We mirror this with a `width`/`signed`
record; values of the sampled type are carried as mathematical `Int`s. -/

structure IntTy where
  width : Nat
  signed : Bool
deriving DecidableEq, Repr

/-- The widths/signedness combinations the library supports
(`Int` trait impls in src/integers.rs; `usize`/`isize` are modelled as
their 64-bit variants). -/
def IntTy.sup (t : IntTy) : Prop :=
  t.width = 8 ∨ t.width = 16 ∨ t.width = 32 ∨ t.width = 64 ∨ t.width = 128

instance (t : IntTy) : Decidable t.sup := by
  unfold IntTy.sup; infer_instance

def u8T : IntTy := ⟨8, false⟩
def u16T : IntTy := ⟨16, false⟩
def u32T : IntTy := ⟨32, false⟩
def u64T : IntTy := ⟨64, false⟩
def u128T : IntTy := ⟨128, false⟩
def i8T : IntTy := ⟨8, true⟩
def i16T : IntTy := ⟨16, true⟩
def i32T : IntTy := ⟨32, true⟩
def i64T : IntTy := ⟨64, true⟩
def i128T : IntTy := ⟨128, true⟩
/-- `usize`, modelled as 64 bits. -/
def usizeT : IntTy := ⟨64, false⟩

/-- Smallest value of the type. -/
def IntTy.minVal (t : IntTy) : Int :=
  if t.signed then -(2 ^ (t.width - 1)) else 0

/-- Largest value of the type. -/
def IntTy.maxVal (t : IntTy) : Int :=
  if t.signed then 2 ^ (t.width - 1) - 1 else 2 ^ t.width - 1

/-- `x` is a value of the machine type `t`. -/
def IntTy.inRange (t : IntTy) (x : Int) : Prop :=
  t.minVal ≤ x ∧ x ≤ t.maxVal

instance (t : IntTy) (x : Int) : Decidable (t.inRange x) := by
  unfold IntTy.inRange; infer_instance

/-- Reduce an integer to the value of type `t` with the same bit pattern
(the semantics of Rust's wrapping casts `as $ty`). -/
def asTy (t : IntTy) (x : Int) : Int :=
  if t.signed ∧ (2 ^ (t.width - 1) : Int) ≤ x % (2 ^ t.width : Int) then
    x % (2 ^ t.width : Int) - 2 ^ t.width
  else x % (2 ^ t.width : Int)

/-- The bit pattern of a value of type `t`, as a natural number
(the semantics of Rust's `as $unsigned` on a `$ty` value). -/
def asUnsigned (t : IntTy) (x : Int) : Nat :=
  (x % (2 ^ t.width : Int)).toNat

/-- The width of `$u_large`: `u32` for `u8`/`u16`/`u32`, otherwise the
type's own width. -/
def uLargeW (t : IntTy) : Nat :=
  if t.width ≤ 32 then 32 else t.width

/-- `$u_large::MAX`. -/
def uMaxN (W : Nat) : Nat := 2 ^ W - 1

/-- `rng.gen::<$u_large>()` (Standard distribution of the rand crate):
`u32` draws `next_u32`, `u64` draws `next_u64`, `u128` draws two
little-endian `u64` halves. -/
def genULarge (t : IntTy) (s : Xo) : Nat × Xo :=
  if t.width ≤ 32 then nextU32 s
  else if t.width ≤ 64 then nextU64 s
  else
    (((nextU64 (nextU64 s).2).1 <<< 64) ||| (nextU64 s).1, (nextU64 (nextU64 s).2).2)

/-- `rng.gen::<$ty>()` (Standard distribution), used by both samplers when
the requested range covers the whole type: a raw `$u_large` draw truncated
to the type's width and sign-interpreted. -/
def genTyFull (t : IntTy) (s : Xo) : Int × Xo :=
  (asTy t ((genULarge t s).1 : Int), (genULarge t s).2)

/-- Bit length of a natural number (with enough fuel this is the position
of the highest set bit plus one); used to compute `leading_zeros`. -/
def bitLenAux : Nat → Nat → Nat
  | 0, _ => 0
  | f + 1, n => if n = 0 then 0 else bitLenAux f (n / 2) + 1

/-- `range << range.leading_zeros()` over `$u_large`, as used by the
single-sample zone below. -/
def bitLen (n : Nat) : Nat := bitLenAux 129 n

/-- `high.wrapping_sub(low).wrapping_add(1) as $unsigned as $u_large`:
the size of the inclusive range as an unsigned bit pattern (`0` encodes the
full type range). -/
def rangeU (t : IntTy) (low high : Int) : Nat :=
  asUnsigned t (asTy t (asTy t (high - low) + 1))

/-- The acceptance zone of rand 0.8's `sample_single_inclusive`: for
widths up to 16 bits the exact largest multiple of `range` minus one, for
wider types the approximation `(range << range.leading_zeros()) - 1`. -/
def zoneSingle (t : IntTy) (range : Nat) : Nat :=
  if t.width ≤ 16 then
    uMaxN (uLargeW t) - (uMaxN (uLargeW t) - range + 1) % range
  else
    range * 2 ^ (uLargeW t - bitLen range) - 1

/-- The shared rejection loop of rand 0.8's uniform integer samplers:
draw `v : $u_large`, widening-multiply by `range`, accept iff the low
half is at most `zone`, and return `low.wrapping_add(hi as $ty)`.
`fuel` bounds the number of attempts; `none` models non-termination. -/
def sampleLoop (t : IntTy) (low : Int) (range zone : Nat) :
    Nat → Xo → Option (Int × Xo)
  | 0, _ => none
  | fuel + 1, s =>
    let v := (genULarge t s).1
    let hi := v * range / 2 ^ uLargeW t
    let lo := v * range % 2 ^ uLargeW t
    if lo ≤ zone then some (asTy t (low + asTy t (hi : Int)), (genULarge t s).2)
    else sampleLoop t low range zone fuel (genULarge t s).2

/-- rand 0.8 `UniformInt::sample_single_inclusive`, the sampler behind
`Rng::gen_range(low..=high)`.  Callers in this development establish
`low ≤ high` before calling (`gen_range` asserts "cannot sample empty
range" first). -/
def sampleSingleInclusive (t : IntTy) (fuel : Nat) (low high : Int) (s : Xo) :
    Option (Int × Xo) :=
  let range := rangeU t low high
  if range = 0 then some (genTyFull t s)
  else sampleLoop t low range (zoneSingle t range) fuel s

/-- Outcome of `int_in_range`: a value, the "cannot sample empty range"
panic, or rejection-loop divergence (fuel exhaustion). -/
inductive SampleResult where
  | ok (v : Int)
  | emptyRange
  | diverged
deriving DecidableEq, Repr

/-- `int_in_range` from src/integers.rs: seed a fresh PRNG from the
randomness and draw `rng.gen_range(b..=e)`. -/
def int_in_range (t : IntTy) (fuel : Nat) (randomness : List Nat) (b e : Int) :
    SampleResult :=
  let rng := make_prng randomness
  if ¬ b ≤ e then SampleResult.emptyRange
  else
    match sampleSingleInclusive t fuel b e rng with
    | some (v, _) => SampleResult.ok v
    | none => SampleResult.diverged

/-- rand 0.8 `UniformInt<$ty>` distribution record: `low`, `range` and the
rejection count `z`, the latter two stored as `$ty` bit patterns. -/
structure UniformInt where
  low : Int
  range : Int
  z : Int
deriving DecidableEq, Repr

/-- rand 0.8 `Uniform::new_inclusive`; `none` models its
"Uniform::new_inclusive called with `low > high`" assertion. -/
def newInclusive (t : IntTy) (low high : Int) : Option UniformInt :=
  if ¬ low ≤ high then none
  else
    let range := rangeU t low high
    let intsToReject :=
      if 0 < range then (uMaxN (uLargeW t) - range + 1) % range else 0
    some ⟨low, asTy t (range : Int), asTy t (intsToReject : Int)⟩

/-- rand 0.8 `UniformInt::sample` (the distribution form used by
`ints_in_range`): same rejection loop, but with the exact zone
`$u_large::MAX - ints_to_reject`. -/
def distrSample (t : IntTy) (fuel : Nat) (d : UniformInt) (s : Xo) :
    Option (Int × Xo) :=
  let range := asUnsigned t d.range
  if 0 < range then
    sampleLoop t d.low range (uMaxN (uLargeW t) - asUnsigned t d.z) fuel s
  else some (genTyFull t s)

/-- The sampling loop of `ints_in_range`: `count` successive draws from
the distribution, threading one generator state. -/
def intsLoop (t : IntTy) (fuel : Nat) (d : UniformInt) :
    Nat → Xo → Option (List Int × Xo)
  | 0, s => some ([], s)
  | count + 1, s =>
    match distrSample t fuel d s with
    | none => none
    | some (v, s') =>
      match intsLoop t fuel d count s' with
      | none => none
      | some (vs, s'') => some (v :: vs, s'')

/-- Outcome of `ints_in_range`: a vector of values, the
`Uniform::new_inclusive` assertion failure, or divergence. -/
inductive IntsResult where
  | ok (vs : List Int)
  | invalidRange
  | diverged
deriving DecidableEq, Repr

/-- `ints_in_range` from src/integers.rs: seed a fresh PRNG, build the
inclusive uniform distribution once, and sample it `count` times into a
vector. -/
def ints_in_range (t : IntTy) (fuel : Nat) (randomness : List Nat)
    (count : Nat) (b e : Int) : IntsResult :=
  let rng := make_prng randomness
  match newInclusive t b e with
  | none => IntsResult.invalidRange
  | some d =>
    match intsLoop t fuel d count rng with
    | some (vs, _) => IntsResult.ok vs
    | none => IntsResult.diverged

/-! ### Fisher-Yates: shuffle (src/shuffle.rs) and pick (src/pick.rs) -/

/-- `Vec::swap` on a list (total: out-of-bounds indices leave the list
unchanged; all call sites stay in bounds). -/
def swapL {α : Type} (l : List α) (i j : Nat) : List α :=
  match l[i]?, l[j]? with
  | some a, some b => (l.set i b).set j a
  | _, _ => l

/-- `rng.gen_range(0..=i)` at `usize`, as used for swap indices.  The
range `0..=i` is never empty, so `gen_range`'s emptiness assertion cannot
fire; the accepted value is returned as a `Nat`. -/
def genIndex (fuel : Nat) (i : Nat) (s : Xo) : Option (Nat × Xo) :=
  match sampleSingleInclusive usizeT fuel 0 (i : Int) s with
  | some (v, s') => some (v.toNat, s')
  | none => none

/-- The Fisher-Yates swap loop shared by `shuffle` and `pick`: `k`
iterations, starting at index `i` and descending, each drawing
`j = gen_range(0..=index)` and swapping. -/
def fyLoop {α : Type} (fuel : Nat) : Nat → Nat → List α → Xo → Option (List α × Xo)
  | 0, _, data, s => some (data, s)
  | k + 1, i, data, s =>
    match genIndex fuel i s with
    | none => none
    | some (j, s') => fyLoop fuel k (i - 1) (swapL data i j) s'

/-- `shuffle` from src/shuffle.rs: for `i` in `(1..len).rev()`, swap
element `i` with a sampled `j` in `[0, i]`. -/
def shuffle {α : Type} (fuel : Nat) (randomness : List Nat) (data : List α) :
    Option (List α) :=
  match fyLoop fuel (data.length - 1) (data.length - 1) data (make_prng randomness) with
  | some (d, _) => some d
  | none => none

/-- Outcome of `pick`: the picked elements, the "attempt to pick more
elements than the input length" panic, or divergence. -/
inductive PickResult (α : Type) where
  | ok (vs : List α)
  | nExceedsLen
  | diverged
deriving DecidableEq, Repr

/-- `pick` from src/pick.rs: panics if `n > len`; otherwise runs the
partial Fisher-Yates loop over the last `n` positions
(`i` in `((len-n)..len).rev()`) and returns the last `n` elements
(`data.split_off(len - n)`). -/
def pick {α : Type} (fuel : Nat) (randomness : List Nat) (n : Nat) (data : List α) :
    PickResult α :=
  if data.length < n then PickResult.nExceedsLen
  else
    match fyLoop fuel n (data.length - 1) data (make_prng randomness) with
    | some (d, _) => PickResult.ok (d.drop (data.length - n))
    | none => PickResult.diverged

/-! ### Weighted selection (src/select_from_weighted.rs) -/

/-- Outcome of `select_from_weighted`: a selected element, a validation
error (`Err(String)`), the fall-through "No element selected" panic, the
(unreachable) "cannot sample empty range" panic inside `int_in_range`, or
divergence. -/
inductive SelectResult (α : Type) where
  | ok (x : α)
  | err (msg : String)
  | panicked
  | emptyRangePanic
  | diverged
deriving DecidableEq, Repr

/-- The validation fold of `select_from_weighted`: rejects zero weights
and computes the total weight with `u32::checked_add`. -/
def totalWeightLoop {α : Type} : List (α × Nat) → Nat → Except String Nat
  | [], acc => Except.ok acc
  | (_, w) :: rest, acc =>
    if w = 0 then Except.error ("All element weights should be >= 1")
    else if uMaxN 32 < acc + w then
      Except.error ("Total weight is greater than maximum value of u32")
    else totalWeightLoop rest (acc + w)

/-- The accumulation walk of `select_from_weighted`: `weight_sum` is a
`u32` accumulator; return the first element whose cumulative weight is at
least `r`.  `none` is the fall-through that the source turns into the
"No element selected" panic. -/
def walkWeighted {α : Type} : List (α × Nat) → Int → Nat → Option α
  | [], _, _ => none
  | (x, w) :: rest, r, acc =>
    let acc' : Nat := (acc + w) % 2 ^ 32
    if r ≤ (acc' : Int) then some x else walkWeighted rest r acc'

/-- `select_from_weighted` from src/select_from_weighted.rs: validate the
list, draw `r = int_in_range(randomness, 1, total_weight)` at `u32`, and
walk the cumulative weights. -/
def select_from_weighted {α : Type} (fuel : Nat) (randomness : List Nat)
    (list : List (α × Nat)) : SelectResult α :=
  if list.isEmpty then SelectResult.err ("List must not be empty")
  else
    match totalWeightLoop list 0 with
    | Except.error msg => SelectResult.err msg
    | Except.ok total =>
      match int_in_range u32T fuel randomness 1 (total : Int) with
      | SampleResult.emptyRange => SelectResult.emptyRangePanic
      | SampleResult.diverged => SelectResult.diverged
      | SampleResult.ok r =>
        match walkWeighted list r 0 with
        | some x => SelectResult.ok x
        | none => SelectResult.panicked

/-! ### Sub-randomness (src/sub_randomness.rs) -/

/-- The 8 little-endian bytes of a `u64`. -/
def leBytes8 (x : Nat) : List Nat :=
  (List.range 8).map (fun k => x >>> (8 * k) % 256)

/-- `SubRandomnessProvider::provide`: fill a 32-byte buffer from the PRNG
(rand_core `fill_bytes_via_next`: four successive `u64` outputs, each
written little-endian). -/
def provide (s : Xo) : List Nat × Xo :=
  let (a, s1) := nextU64 s
  let (b, s2) := nextU64 s1
  let (c, s3) := nextU64 s2
  let (d, s4) := nextU64 s3
  (leBytes8 a ++ leBytes8 b ++ leBytes8 c ++ leBytes8 d, s4)

/-- The `k`-th 256-bit output of a provider state (iterating `provide`). -/
def provideAt (s : Xo) : Nat → List Nat
  | 0 => (provide s).1
  | k + 1 => provideAt (provide s).2 k

/-- The 16 big-endian bytes of a `u128` (`u128::to_be_bytes`). -/
def beBytes16 (x : Nat) : List Nat :=
  (List.range 16).map (fun k => x >>> (8 * (15 - k)) % 256)

/-- `sub_randomness_with_key` from src/sub_randomness.rs: XOR the 16
big-endian bytes of `xxh3_128(key)` into the first 16 seed bytes, then
seed the provider's PRNG from the mixed seed.  The external `xxh3_128`
hash (xxhash_rust crate) is abstracted as the function parameter `hash`
(reduced to 128 bits). -/
def sub_randomness_with_key (hash : List Nat → Nat) (randomness : List Nat)
    (key : List Nat) : Xo :=
  let hashedKey := beBytes16 (hash key % 2 ^ 128)
  make_prng
    ((List.zipWith (fun a b => a ^^^ b) (randomness.take 16) hashedKey) ++
      randomness.drop 16)

/-- The byte string of the default key `b"_^default^_"`. -/
def defaultKey : List Nat :=
  [0x5F, 0x5E, 0x64, 0x65, 0x66, 0x61, 0x75, 0x6C, 0x74, 0x5E, 0x5F]

/-- `sub_randomness` from src/sub_randomness.rs: the default-keyed
variant, defined as `sub_randomness_with_key(randomness, b"_^default^_")`. -/
def sub_randomness (hash : List Nat → Nat) (randomness : List Nat) : Xo :=
  sub_randomness_with_key hash randomness defaultKey

/-- Sum of the weights of a weighted list (as an unbounded natural). -/
def sumW {α : Type} (list : List (α × Nat)) : Nat :=
  (list.map (fun p => p.2)).sum

/-- A weighted list passes `select_from_weighted`'s validation: non-empty,
every weight a nonzero `u32`, and the total weight within `u32` range. -/
def validWeighted {α : Type} (list : List (α × Nat)) : Prop :=
  list ≠ [] ∧ (∀ p ∈ list, p.2 ≠ 0 ∧ p.2 ≤ uMaxN 32) ∧ sumW list ≤ uMaxN 32

/-- Whether a `select_from_weighted` outcome is an `Err(String)` return. -/
def SelectResult.isErr {α : Type} : SelectResult α → Bool
  | SelectResult.err _ => true
  | _ => false

/-- The spec's reading of `sample_many`: `count` sequential single draws
from the distribution `d`, sharing (threading) one generator state, the
values collected in draw order. -/
def distrDrawSeq (t : IntTy) (fuel : Nat) (d : UniformInt) : Nat → Xo → Option (List Int)
  | 0, _ => some []
  | k + 1, s =>
    match distrSample t fuel d s with
    | none => none
    | some (v, s') =>
      match distrDrawSeq t fuel d k s' with
      | none => none
      | some vs => some (v :: vs)

instance {α : Type} [DecidableEq α] (l : List (α × Nat)) :
    Decidable (validWeighted l) := by
  unfold validWeighted
  infer_instance

/-! ### Arithmetic facts about the embedding -/

theorem pow_cast (w : Nat) : ((2 ^ w : Nat) : Int) = 2 ^ w := by
  push_cast
  ring

theorem pow_split (w : Nat) (hw : 1 ≤ w) : (2 ^ w : Int) = 2 ^ (w - 1) * 2 := by
  rw [← pow_succ]
  congr 1
  omega

theorem nextU64_fst_lt (s : Xo) : (nextU64 s).1 < 2 ^ 64 :=
  Nat.mod_lt _ (by positivity)

theorem nextU32_fst_lt (s : Xo) : (nextU32 s).1 < 2 ^ 32 := by
  have h := nextU64_fst_lt s
  show (nextU64 s).1 >>> 32 < 2 ^ 32
  rw [Nat.shiftRight_eq_div_pow]
  refine Nat.div_lt_of_lt_mul ?_
  calc (nextU64 s).1 < 2 ^ 64 := h
    _ = 2 ^ 32 * 2 ^ 32 := by norm_num

theorem genULarge_fst_lt (t : IntTy) (ht : t.sup) (s : Xo) :
    (genULarge t s).1 < 2 ^ uLargeW t := by
  have h32 : ∀ (h : t.width ≤ 32), (genULarge t s).1 = (nextU32 s).1 ∧ uLargeW t = 32 := by
    intro h
    constructor
    · simp [genULarge, h]
    · simp [uLargeW, h]
  rcases ht with h | h | h | h | h
  · obtain ⟨h1, h2⟩ := h32 (by omega)
    rw [h1, h2]
    exact nextU32_fst_lt s
  · obtain ⟨h1, h2⟩ := h32 (by omega)
    rw [h1, h2]
    exact nextU32_fst_lt s
  · obtain ⟨h1, h2⟩ := h32 (by omega)
    rw [h1, h2]
    exact nextU32_fst_lt s
  · have h1 : (genULarge t s).1 = (nextU64 s).1 := by simp [genULarge, h]
    have h2 : uLargeW t = 64 := by simp [uLargeW, h]
    rw [h1, h2]
    exact nextU64_fst_lt s
  · have h1 : (genULarge t s).1 = ((nextU64 (nextU64 s).2).1 <<< 64) ||| (nextU64 s).1 := by
      simp [genULarge, h]
    have h2 : uLargeW t = 128 := by simp [uLargeW, h]
    rw [h1, h2]
    refine Nat.or_lt_two_pow ?_ ?_
    · rw [Nat.shiftLeft_eq]
      calc (nextU64 (nextU64 s).2).1 * 2 ^ 64 < 2 ^ 64 * 2 ^ 64 :=
            (Nat.mul_lt_mul_right (by positivity)).mpr (nextU64_fst_lt _)
        _ = 2 ^ 128 := by norm_num
    · calc (nextU64 s).1 < 2 ^ 64 := nextU64_fst_lt s
        _ ≤ 2 ^ 128 := by norm_num

theorem sup_width_pos (t : IntTy) (ht : t.sup) : 1 ≤ t.width := by
  rcases ht with h | h | h | h | h <;> omega

theorem emod_shift (a M : Int) : (a - M) % M = a % M := by
  conv_rhs => rw [show a = a - M + M * 1 from by ring]
  rw [Int.add_mul_emod_self_left]

theorem asTy_emod (t : IntTy) (x : Int) :
    asTy t x % (2 ^ t.width : Int) = x % 2 ^ t.width := by
  unfold asTy
  split
  · rw [emod_shift]
    exact Int.emod_emod_of_dvd x dvd_rfl
  · exact Int.emod_emod_of_dvd x dvd_rfl

theorem asTy_congr (t : IntTy) {x y : Int}
    (h : x % (2 ^ t.width : Int) = y % 2 ^ t.width) : asTy t x = asTy t y := by
  unfold asTy
  rw [h]

theorem asTy_inRange (t : IntTy) (hw : 1 ≤ t.width) (x : Int) :
    t.inRange (asTy t x) := by
  have h0 : 0 ≤ x % (2 ^ t.width : Int) := Int.emod_nonneg x (by positivity)
  have h1 : x % (2 ^ t.width : Int) < 2 ^ t.width := Int.emod_lt_of_pos x (by positivity)
  have hsplit := pow_split t.width hw
  have hP : (0 : Int) < 2 ^ (t.width - 1) := by positivity
  unfold asTy IntTy.inRange IntTy.minVal IntTy.maxVal
  cases hs : t.signed
  · simp only [hs, Bool.false_eq_true, false_and, if_false, if_neg]
    omega
  · simp only [hs, true_and, if_true]
    split <;> omega

theorem asTy_fixed (t : IntTy) (hw : 1 ≤ t.width) {x : Int} (h : t.inRange x) :
    asTy t x = x := by
  have hsplit := pow_split t.width hw
  have hP : (0 : Int) < 2 ^ (t.width - 1) := by positivity
  obtain ⟨hmin, hmax⟩ := h
  unfold IntTy.minVal at hmin
  unfold IntTy.maxVal at hmax
  unfold asTy
  cases hs : t.signed
  · simp only [hs, Bool.false_eq_true, false_and, if_false, if_neg]
    simp only [hs, Bool.false_eq_true, if_false, if_neg] at hmin hmax
    exact Int.emod_eq_of_lt hmin (by omega)
  · simp only [hs, true_and, if_true]
    simp only [hs, if_true] at hmin hmax
    rcases le_or_lt 0 x with hx | hx
    · have hmod : x % (2 ^ t.width : Int) = x := Int.emod_eq_of_lt hx (by omega)
      rw [hmod]
      rw [if_neg (by omega)]
    · have hmod : x % (2 ^ t.width : Int) = x + 2 ^ t.width := by
        have h2 : (x + 2 ^ t.width) % (2 ^ t.width : Int) = x % 2 ^ t.width := by
          conv_rhs => rw [show x % (2 ^ t.width : Int) = (x + 2 ^ t.width * 1) % 2 ^ t.width from
            by rw [Int.add_mul_emod_self_left]]
          ring_nf
        rw [← h2]
        exact Int.emod_eq_of_lt (by omega) (by omega)
      rw [hmod]
      rw [if_pos (by omega)]
      omega

theorem asUnsigned_lt (t : IntTy) (x : Int) : asUnsigned t x < 2 ^ t.width := by
  unfold asUnsigned
  have h0 : 0 ≤ x % (2 ^ t.width : Int) := Int.emod_nonneg x (by positivity)
  have h1 : x % (2 ^ t.width : Int) < 2 ^ t.width := Int.emod_lt_of_pos x (by positivity)
  rw [← pow_cast] at h0 h1 ⊢
  omega

theorem asUnsigned_ofNat (t : IntTy) {n : Nat} (h : n < 2 ^ t.width) :
    asUnsigned t (n : Int) = n := by
  unfold asUnsigned
  have hcast : ((n : Int)) < (2 ^ t.width : Int) := by
    rw [← pow_cast]
    exact_mod_cast h
  rw [Int.emod_eq_of_lt (by positivity) hcast]
  simp

theorem asUnsigned_asTy (t : IntTy) (x : Int) :
    asUnsigned t (asTy t x) = asUnsigned t x := by
  unfold asUnsigned
  rw [asTy_emod]

theorem rangeU_eq (t : IntTy) (low high : Int) :
    rangeU t low high = ((high - low + 1) % (2 ^ t.width : Int)).toNat := by
  unfold rangeU
  rw [asUnsigned_asTy]
  unfold asUnsigned
  congr 1
  conv_lhs => rw [Int.add_emod]
  conv_rhs => rw [show high - low + 1 = (high - low) + 1 from by ring, Int.add_emod]
  rw [asTy_emod]

theorem rangeU_lt (t : IntTy) (low high : Int) : rangeU t low high < 2 ^ t.width :=
  asUnsigned_lt t _

theorem range_facts (t : IntTy) (hw : 1 ≤ t.width) {low high : Int}
    (hl : t.inRange low) (hh : t.inRange high) (hle : low ≤ high) :
    1 ≤ high - low + 1 ∧ high - low + 1 ≤ (2 ^ t.width : Int) := by
  have hsplit := pow_split t.width hw
  have hP : (0 : Int) < 2 ^ (t.width - 1) := by positivity
  obtain ⟨hl1, hl2⟩ := hl
  obtain ⟨hh1, hh2⟩ := hh
  unfold IntTy.minVal at hl1 hh1
  unfold IntTy.maxVal at hl2 hh2
  cases hs : t.signed <;> simp only [hs, if_true, if_false, Bool.false_eq_true] at hl1 hl2 hh1 hh2 <;> omega

theorem rangeU_spec (t : IntTy) (hw : 1 ≤ t.width) {low high : Int}
    (hl : t.inRange low) (hh : t.inRange high) (hle : low ≤ high)
    (hnz : rangeU t low high ≠ 0) :
    (rangeU t low high : Int) = high - low + 1 := by
  obtain ⟨hd1, hd2⟩ := range_facts t hw hl hh hle
  rw [rangeU_eq] at hnz ⊢
  rcases lt_or_eq_of_le hd2 with hlt | heq
  · rw [Int.emod_eq_of_lt (by omega) hlt]
    exact Int.toNat_of_nonneg (by omega)
  · exfalso
    apply hnz
    rw [heq, Int.emod_self]
    rfl

theorem rangeU_zero (t : IntTy) (hw : 1 ≤ t.width) {low high : Int}
    (hl : t.inRange low) (hh : t.inRange high) (hle : low ≤ high)
    (hz : rangeU t low high = 0) :
    low = t.minVal ∧ high = t.maxVal := by
  obtain ⟨hd1, hd2⟩ := range_facts t hw hl hh hle
  rw [rangeU_eq] at hz
  have hfull : high - low + 1 = (2 ^ t.width : Int) := by
    rcases lt_or_eq_of_le hd2 with hlt | heq
    · exfalso
      rw [Int.emod_eq_of_lt (by omega) hlt] at hz
      omega
    · exact heq
  have hsplit := pow_split t.width hw
  have hP : (0 : Int) < 2 ^ (t.width - 1) := by positivity
  obtain ⟨hl1, hl2⟩ := hl
  obtain ⟨hh1, hh2⟩ := hh
  unfold IntTy.minVal at hl1 ⊢
  unfold IntTy.maxVal at hl2 hh2 ⊢
  unfold IntTy.minVal at hh1
  cases hs : t.signed <;>
    simp only [hs, if_true, if_false, Bool.false_eq_true] at hl1 hl2 hh1 hh2 ⊢ <;>
    constructor <;> omega

/-! ### Correctness of the samplers -/

theorem accept_val_bounds (t : IntTy) (ht : t.sup) {low high : Int}
    (hl : t.inRange low) (hh : t.inRange high) (hle : low ≤ high)
    (hnz : rangeU t low high ≠ 0) (V : Nat) (hV : V < 2 ^ uLargeW t) :
    low ≤ asTy t (low + asTy t ((V * rangeU t low high / 2 ^ uLargeW t : Nat) : Int)) ∧
      asTy t (low + asTy t ((V * rangeU t low high / 2 ^ uLargeW t : Nat) : Int)) ≤ high := by
  have hw : 1 ≤ t.width := sup_width_pos t ht
  have hR := rangeU_spec t hw hl hh hle hnz
  have hRpos : 0 < rangeU t low high := Nat.pos_of_ne_zero hnz
  have hhiR : V * rangeU t low high / 2 ^ uLargeW t < rangeU t low high := by
    refine Nat.div_lt_of_lt_mul ?_
    exact (Nat.mul_lt_mul_right hRpos).mpr hV
  have hicast : ((V * rangeU t low high / 2 ^ uLargeW t : Nat) : Int) ≤ high - low := by
    have h1 : ((V * rangeU t low high / 2 ^ uLargeW t : Nat) : Int) <
        ((rangeU t low high : Nat) : Int) := by exact_mod_cast hhiR
    omega
  have hnn : (0 : Int) ≤ ((V * rangeU t low high / 2 ^ uLargeW t : Nat) : Int) := by positivity
  have hsum : t.inRange (low + ((V * rangeU t low high / 2 ^ uLargeW t : Nat) : Int)) := by
    obtain ⟨hl1, hl2⟩ := hl
    obtain ⟨hh1, hh2⟩ := hh
    constructor <;> omega
  have hcongr : asTy t (low + asTy t ((V * rangeU t low high / 2 ^ uLargeW t : Nat) : Int)) =
      asTy t (low + ((V * rangeU t low high / 2 ^ uLargeW t : Nat) : Int)) := by
    refine asTy_congr t ?_
    conv_lhs => rw [Int.add_emod]
    conv_rhs => rw [Int.add_emod]
    rw [asTy_emod]
  rw [hcongr, asTy_fixed t hw hsum]
  omega

theorem sampleLoop_ok (t : IntTy) (ht : t.sup) {low high : Int}
    (hl : t.inRange low) (hh : t.inRange high) (hle : low ≤ high)
    (hnz : rangeU t low high ≠ 0) (zone : Nat) :
    ∀ fuel s v s', sampleLoop t low (rangeU t low high) zone fuel s = some (v, s') →
      low ≤ v ∧ v ≤ high := by
  intro fuel
  induction fuel with
  | zero =>
    intro s v s' h
    simp [sampleLoop] at h
  | succ f ih =>
    intro s v s' h
    simp only [sampleLoop] at h
    split at h
    · simp only [Option.some.injEq, Prod.mk.injEq] at h
      obtain ⟨hv, _⟩ := h
      rw [← hv]
      exact accept_val_bounds t ht hl hh hle hnz (genULarge t s).1 (genULarge_fst_lt t ht s)
    · exact ih _ v s' h

theorem genTyFull_ok (t : IntTy) (hw : 1 ≤ t.width) {b e : Int}
    (hb : t.inRange b) (he : t.inRange e) (hle : b ≤ e)
    (h0 : rangeU t b e = 0) (s : Xo) :
    b ≤ (genTyFull t s).1 ∧ (genTyFull t s).1 ≤ e := by
  obtain ⟨hbm, hem⟩ := rangeU_zero t hw hb he hle h0
  have hr := asTy_inRange t hw (((genULarge t s).1 : Nat) : Int)
  unfold genTyFull
  rw [hbm, hem]
  exact ⟨hr.1, hr.2⟩

theorem sampleSingleInclusive_ok (t : IntTy) (ht : t.sup) {b e : Int}
    (hb : t.inRange b) (he : t.inRange e) (hle : b ≤ e) {fuel : Nat} {s : Xo}
    {v : Int} {s' : Xo} (h : sampleSingleInclusive t fuel b e s = some (v, s')) :
    b ≤ v ∧ v ≤ e := by
  have hw : 1 ≤ t.width := sup_width_pos t ht
  simp only [sampleSingleInclusive] at h
  split at h
  · simp only [Option.some.injEq] at h
    have hv : v = (genTyFull t s).1 := by rw [h]
    rw [hv]
    exact genTyFull_ok t hw hb he hle (by assumption) s
  · exact sampleLoop_ok t ht hb he hle (by assumption) _ fuel s v s' h

theorem int_in_range_ok (t : IntTy) (ht : t.sup) {fuel : Nat}
    {randomness : List Nat} {b e v : Int}
    (hb : t.inRange b) (he : t.inRange e) (hle : b ≤ e)
    (h : int_in_range t fuel randomness b e = SampleResult.ok v) :
    b ≤ v ∧ v ≤ e := by
  unfold int_in_range at h
  rw [if_neg (by simp [hle])] at h
  cases hs : sampleSingleInclusive t fuel b e (make_prng randomness) with
  | none =>
    rw [hs] at h
    simp at h
  | some p =>
    rw [hs] at h
    obtain ⟨v0, s0⟩ := p
    simp only [SampleResult.ok.injEq] at h
    rw [← h]
    exact sampleSingleInclusive_ok t ht hb he hle hs

theorem newInclusive_eq {t : IntTy} {b e : Int} (hle : b ≤ e) :
    newInclusive t b e = some
      ⟨b, asTy t ((rangeU t b e : Nat) : Int),
        asTy t (((if 0 < rangeU t b e then
          (uMaxN (uLargeW t) - rangeU t b e + 1) % rangeU t b e else 0) : Nat) : Int)⟩ := by
  unfold newInclusive
  rw [if_neg (by simp [hle])]

theorem asUnsigned_asTy_rangeU (t : IntTy) (b e : Int) :
    asUnsigned t (asTy t ((rangeU t b e : Nat) : Int)) = rangeU t b e := by
  rw [asUnsigned_asTy]
  exact asUnsigned_ofNat t (rangeU_lt t b e)

theorem distrSample_ok (t : IntTy) (ht : t.sup) {b e : Int}
    (hb : t.inRange b) (he : t.inRange e) (hle : b ≤ e) {fuel : Nat}
    {d : UniformInt} {s : Xo} {v : Int} {s' : Xo}
    (hd : newInclusive t b e = some d) (h : distrSample t fuel d s = some (v, s')) :
    b ≤ v ∧ v ≤ e := by
  have hw : 1 ≤ t.width := sup_width_pos t ht
  rw [newInclusive_eq hle] at hd
  simp only [Option.some.injEq] at hd
  rw [← hd] at h
  simp only [distrSample] at h
  rw [asUnsigned_asTy_rangeU t b e] at h
  split at h
  · exact sampleLoop_ok t ht hb he hle (by omega) _ fuel s v s' h
  · simp only [Option.some.injEq] at h
    have hv : v = (genTyFull t s).1 := by rw [h]
    rw [hv]
    exact genTyFull_ok t hw hb he hle (by omega) s

theorem intsLoop_ok (t : IntTy) (ht : t.sup) {b e : Int}
    (hb : t.inRange b) (he : t.inRange e) (hle : b ≤ e) {fuel : Nat}
    {d : UniformInt} (hd : newInclusive t b e = some d) :
    ∀ count s vs s'', intsLoop t fuel d count s = some (vs, s'') →
      vs.length = count ∧ ∀ v ∈ vs, b ≤ v ∧ v ≤ e := by
  intro count
  induction count with
  | zero =>
    intro s vs s'' h
    simp only [intsLoop, Option.some.injEq, Prod.mk.injEq] at h
    obtain ⟨h1, _⟩ := h
    rw [← h1]
    simp
  | succ k ih =>
    intro s vs s'' h
    simp only [intsLoop] at h
    cases hds : distrSample t fuel d s with
    | none =>
      rw [hds] at h
      simp at h
    | some p =>
      obtain ⟨v0, s0⟩ := p
      rw [hds] at h
      dsimp only at h
      cases hloop : intsLoop t fuel d k s0 with
      | none =>
        rw [hloop] at h
        simp at h
      | some q =>
        obtain ⟨vs0, s1⟩ := q
        rw [hloop] at h
        dsimp only at h
        simp only [Option.some.injEq, Prod.mk.injEq] at h
        obtain ⟨h1, _⟩ := h
        rw [← h1]
        obtain ⟨hlen, hmem⟩ := ih s0 vs0 s1 hloop
        refine ⟨by simp [hlen], ?_⟩
        intro v hv
        rcases List.mem_cons.mp hv with hv0 | hvrest
        · rw [hv0]
          exact distrSample_ok t ht hb he hle hd hds
        · exact hmem v hvrest

/-! ### Claims C2 and C7: range sampling -/

/-- Claim C2: for every 32-byte randomness seed, every supported integer
type and every pair `b ≤ e`, a value returned by `int_in_range` satisfies
`b ≤ v ≤ e`; `ints_in_range` returns exactly `count` elements, each in
`[b, e]`; and a zero count returns the empty vector.  (The rejection loop
is fuel-bounded; `ok` is the outcome in which the source returns.) -/
theorem claim_c2 (t : IntTy) (ht : t.sup) (fuel : Nat) (randomness : List Nat)
    (b e : Int) (hb : t.inRange b) (he : t.inRange e) (hle : b ≤ e) :
    (∀ v, int_in_range t fuel randomness b e = SampleResult.ok v → b ≤ v ∧ v ≤ e) ∧
    (∀ count vs, ints_in_range t fuel randomness count b e = IntsResult.ok vs →
      vs.length = count ∧ ∀ v ∈ vs, b ≤ v ∧ v ≤ e) ∧
    ints_in_range t fuel randomness 0 b e = IntsResult.ok [] := by
  refine ⟨?_, ?_, ?_⟩
  · intro v h
    exact int_in_range_ok t ht hb he hle h
  · intro count vs h
    unfold ints_in_range at h
    rw [newInclusive_eq hle] at h
    dsimp only at h
    cases hloop : intsLoop t fuel
        ⟨b, asTy t ((rangeU t b e : Nat) : Int),
          asTy t (((if 0 < rangeU t b e then
            (uMaxN (uLargeW t) - rangeU t b e + 1) % rangeU t b e else 0) : Nat) : Int)⟩
        count (make_prng randomness) with
    | none =>
      rw [hloop] at h
      simp at h
    | some q =>
      obtain ⟨vs0, s1⟩ := q
      rw [hloop] at h
      dsimp only at h
      simp only [IntsResult.ok.injEq] at h
      rw [← h]
      exact intsLoop_ok t ht hb he hle (newInclusive_eq hle) count (make_prng randomness) vs0 s1 hloop
  · unfold ints_in_range
    rw [newInclusive_eq hle]
    dsimp only
    rw [show intsLoop t fuel
        ⟨b, asTy t ((rangeU t b e : Nat) : Int),
          asTy t (((if 0 < rangeU t b e then
            (uMaxN (uLargeW t) - rangeU t b e + 1) % rangeU t b e else 0) : Nat) : Int)⟩
        0 (make_prng randomness) = some ([], make_prng randomness) from rfl]

/-- Witness for C2 at a concrete input: the type `u64`, the seed of 32
bytes `17`, and the range `[1, 6]`. -/
theorem claim_c2_witness :
    u64T.sup ∧ u64T.inRange 1 ∧ u64T.inRange 6 ∧ ((1 : Int) ≤ 6) ∧
    (∀ v, int_in_range u64T 10 (List.replicate 32 17) 1 6 = SampleResult.ok v →
      1 ≤ v ∧ v ≤ 6) :=
  ⟨by decide, by decide, by decide, by decide,
    (claim_c2 u64T (by decide) 10 (List.replicate 32 17) 1 6 (by decide) (by decide)
      (by decide)).1⟩

/-- Claim C7: `int_in_range` fails with the "cannot sample empty range"
condition exactly when `begin > end`; for `begin = end` every returned
value is that single value. -/
theorem claim_c7 (t : IntTy) (ht : t.sup) (fuel : Nat) (randomness : List Nat)
    (b e : Int) (hb : t.inRange b) (he : t.inRange e) :
    (int_in_range t fuel randomness b e = SampleResult.emptyRange ↔ e < b) ∧
    (b = e → ∀ v, int_in_range t fuel randomness b e = SampleResult.ok v → v = b) := by
  constructor
  · constructor
    · intro h
      by_contra hc
      have hle : b ≤ e := by omega
      unfold int_in_range at h
      rw [if_neg (by simp [hle])] at h
      cases hs : sampleSingleInclusive t fuel b e (make_prng randomness) with
      | none =>
        rw [hs] at h
        simp at h
      | some p =>
        obtain ⟨v0, s0⟩ := p
        rw [hs] at h
        simp at h
    · intro h
      unfold int_in_range
      rw [if_pos (by omega)]
  · intro hbe v h
    have hle : b ≤ e := by omega
    have hbounds := int_in_range_ok t ht hb he hle h
    omega

/-- Witness for C7 at a concrete input: `u64`, a concrete seed, and the
one-point range `[123, 123]`, where the returned value is 123. -/
theorem claim_c7_witness :
    u64T.sup ∧ u64T.inRange 123 ∧
    ((123 : Int) = 123) ∧
    int_in_range u64T 100
      [43, 140, 160, 0, 187, 41, 212, 6, 218, 53, 58, 198, 80, 209, 171, 239,
        222, 247, 30, 23, 184, 79, 79, 221, 192, 225, 217, 142, 135, 164, 169, 255]
      123 123 = SampleResult.ok 123 ∧
    (123 : Int) = 123 :=
  ⟨by decide, by decide, rfl, by decide,
    (claim_c7 u64T (by decide) 100
      [43, 140, 160, 0, 187, 41, 212, 6, 218, 53, 58, 198, 80, 209, 171, 239,
        222, 247, 30, 23, 184, 79, 79, 221, 192, 225, 217, 142, 135, 164, 169, 255]
      123 123 (by decide) (by decide)).2 rfl 123 (by decide)⟩

/-! ### List swap and Fisher-Yates lemmas -/

theorem set_self {α : Type} (l : List α) (i : Nat) (a : α)
    (h : l[i]? = some a) : l.set i a = l := by
  induction l generalizing i with
  | nil => simp at h
  | cons x t ih =>
    cases i with
    | zero =>
      simp at h
      simp [h]
    | succ m =>
      simp at h ⊢
      exact ih m h

theorem ms_set {α : Type} (l : List α) (i : Nat) (a b : α)
    (h : l[i]? = some a) :
    (↑(l.set i b) : Multiset α) + {a} = (↑l : Multiset α) + {b} := by
  induction l generalizing i with
  | nil => simp at h
  | cons x t ih =>
    cases i with
    | zero =>
      simp at h
      rw [show (x :: t).set 0 b = b :: t from rfl]
      rw [h]
      simp only [← Multiset.cons_coe, ← Multiset.singleton_add]
      abel
    | succ m =>
      simp at h
      rw [show (x :: t).set (m + 1) b = x :: t.set m b from rfl]
      simp only [← Multiset.cons_coe, ← Multiset.singleton_add]
      rw [add_assoc, ih m h, ← add_assoc]

theorem swapL_self {α : Type} (l : List α) (i : Nat) : swapL l i i = l := by
  unfold swapL
  cases h : l[i]? with
  | none => rfl
  | some a =>
    dsimp only
    rw [List.set_set]
    exact set_self l i a h

theorem ms_swapL {α : Type} (l : List α) (i j : Nat) :
    (↑(swapL l i j) : Multiset α) = ↑l := by
  rcases eq_or_ne i j with rfl | hne
  · rw [swapL_self]
  · unfold swapL
    cases h1 : l[i]? with
    | none => rfl
    | some a =>
      cases h2 : l[j]? with
      | none => rfl
      | some b =>
        have h2' : (l.set i b)[j]? = some b := by
          rw [List.getElem?_set_ne hne]
          exact h2
        have e1 := ms_set (l.set i b) j b a h2'
        have e2 := ms_set l i a b h1
        have : (↑((l.set i b).set j a) : Multiset α) + {b} = (↑l : Multiset α) + {b} := by
          rw [e1, e2]
        exact add_right_cancel this

theorem fyLoop_ms {α : Type} (fuel : Nat) :
    ∀ (k i : Nat) (data : List α) (s : Xo) (d : List α) (s' : Xo),
      fyLoop fuel k i data s = some (d, s') → (↑d : Multiset α) = ↑data := by
  intro k
  induction k with
  | zero =>
    intro i data s d s' h
    simp only [fyLoop, Option.some.injEq, Prod.mk.injEq] at h
    rw [h.1]
  | succ m ih =>
    intro i data s d s' h
    simp only [fyLoop] at h
    cases hg : genIndex fuel i s with
    | none =>
      rw [hg] at h
      simp at h
    | some p =>
      obtain ⟨j, s0⟩ := p
      rw [hg] at h
      dsimp only at h
      have := ih (i - 1) (swapL data i j) s0 d s' h
      rw [this]
      exact ms_swapL data i j

theorem fyLoop_length {α : Type} (fuel : Nat) (k i : Nat) (data : List α)
    (s : Xo) (d : List α) (s' : Xo)
    (h : fyLoop fuel k i data s = some (d, s')) : d.length = data.length := by
  have hms := fyLoop_ms fuel k i data s d s' h
  have := congrArg Multiset.card hms
  simpa using this

theorem genIndex_zero {fuel : Nat} {s : Xo} {j : Nat} {s' : Xo}
    (h : genIndex fuel 0 s = some (j, s')) : j = 0 := by
  unfold genIndex at h
  cases hs : sampleSingleInclusive usizeT fuel 0 ((0 : Nat) : Int) s with
  | none =>
    rw [hs] at h
    simp at h
  | some p =>
    obtain ⟨v, s0⟩ := p
    rw [hs] at h
    dsimp only at h
    simp only [Option.some.injEq, Prod.mk.injEq] at h
    have hb := sampleSingleInclusive_ok usizeT (by decide) (b := 0) (e := ((0 : Nat) : Int))
      (by decide) (by decide) (by decide) hs
    have hv : v = 0 := by
      have h1 := hb.1
      have h2 := hb.2
      omega
    rw [← h.1, hv]
    rfl

theorem fyLoop_succ {α : Type} (fuel : Nat) :
    ∀ (k i : Nat) (data : List α) (s : Xo),
      fyLoop fuel (k + 1) i data s =
        match fyLoop fuel k i data s with
        | none => none
        | some (d, s') =>
          match genIndex fuel (i - k) s' with
          | none => none
          | some (j, s'') => some (swapL d (i - k) j, s'') := by
  intro k
  induction k with
  | zero =>
    intro i data s
    cases hg : genIndex fuel i s with
    | none => simp [fyLoop, hg]
    | some p =>
      obtain ⟨j, s0⟩ := p
      simp [fyLoop, hg]
  | succ m ih =>
    intro i data s
    conv_lhs => rw [fyLoop]
    conv_rhs => rw [fyLoop]
    cases hg : genIndex fuel i s with
    | none => rfl
    | some p =>
      obtain ⟨j, s0⟩ := p
      dsimp only
      rw [ih (i - 1) (swapL data i j) s0]
      have harith : i - 1 - m = i - (m + 1) := by omega
      rw [harith]

/-! ### Claims C3, C8, C1: shuffle and pick -/

/-- Claim C3: for every seed and input vector, a list returned by `shuffle`
is a permutation of the input multiset (same elements with the same
multiplicities); for length at most 1 the output is the unchanged input. -/
theorem claim_c3 {α : Type} (fuel : Nat) (randomness : List Nat) (data : List α) :
    (∀ out, shuffle fuel randomness data = some out → (↑out : Multiset α) = ↑data) ∧
    (data.length ≤ 1 → shuffle fuel randomness data = some data) := by
  constructor
  · intro out h
    unfold shuffle at h
    cases hloop : fyLoop fuel (data.length - 1) (data.length - 1) data (make_prng randomness) with
    | none =>
      rw [hloop] at h
      simp at h
    | some p =>
      obtain ⟨d, s'⟩ := p
      rw [hloop] at h
      dsimp only at h
      simp only [Option.some.injEq] at h
      rw [← h]
      exact fyLoop_ms fuel _ _ data _ d s' hloop
  · intro hlen
    unfold shuffle
    rw [show data.length - 1 = 0 from by omega]
    rfl

/-- Witness for C3 at concrete inputs: shuffling `[1, 2, 3, 4]` with the
doc-fixture seed gives a permutation (`[2, 4, 3, 1]`), and a singleton is
returned unchanged. -/
theorem claim_c3_witness :
    (↑([2, 4, 3, 1] : List Nat) : Multiset Nat) = ↑([1, 2, 3, 4] : List Nat) ∧
    shuffle 100 [1, 2, 3] [(5 : Nat)] = some [5] :=
  ⟨(claim_c3 100
      [0x9e, 0x8e, 0x26, 0x61, 0x5f, 0x51, 0x55, 0x2a, 0xa3, 0xb1, 0x8b, 0x6f,
        0x0b, 0xcf, 0x0d, 0xae, 0x5a, 0xfb, 0xe3, 0x03, 0x21, 0xe8, 0xd7, 0xea,
        0x7f, 0xa5, 0x1e, 0xbe, 0xb1, 0xd8, 0xfe, 0x62]
      [1, 2, 3, 4]).1 [2, 4, 3, 1] (by decide),
    (claim_c3 100 [1, 2, 3] [(5 : Nat)]).2 (by decide)⟩

/-- Claim C8: `pick` fails (panics "attempt to pick more elements than the
input length") exactly when `n` exceeds the input length; a returned list
has exactly `n` elements drawn without replacement from the input multiset;
`n = 0` returns the empty vector. -/
theorem claim_c8 {α : Type} (fuel : Nat) (randomness : List Nat) (n : Nat)
    (data : List α) :
    (pick fuel randomness n data = PickResult.nExceedsLen ↔ data.length < n) ∧
    (∀ out, pick fuel randomness n data = PickResult.ok out →
      out.length = n ∧ (↑out : Multiset α) ≤ ↑data) ∧
    (n = 0 → pick fuel randomness n data = PickResult.ok []) := by
  refine ⟨?_, ?_, ?_⟩
  · unfold pick
    split
    · simp only [true_iff]
      assumption
    · cases hloop : fyLoop fuel n (data.length - 1) data (make_prng randomness) with
      | none =>
        simp only [hloop]
        constructor
        · intro h
          cases h
        · intro h
          omega
      | some p =>
        obtain ⟨d, s'⟩ := p
        simp only [hloop]
        constructor
        · intro h
          cases h
        · intro h
          omega
  · intro out h
    unfold pick at h
    split at h
    · cases h
    · rename_i hnle
      cases hloop : fyLoop fuel n (data.length - 1) data (make_prng randomness) with
      | none =>
        rw [hloop] at h
        cases h
      | some p =>
        obtain ⟨d, s'⟩ := p
        rw [hloop] at h
        dsimp only at h
        simp only [PickResult.ok.injEq] at h
        have hms := fyLoop_ms fuel n (data.length - 1) data (make_prng randomness) d s' hloop
        have hdl : d.length = data.length :=
          fyLoop_length fuel n (data.length - 1) data (make_prng randomness) d s' hloop
        constructor
        · rw [← h]
          rw [List.length_drop, hdl]
          omega
        · rw [← h]
          have hsub : (↑(d.drop (data.length - n)) : Multiset α) ≤ ↑d :=
            Multiset.coe_le.mpr (List.Sublist.subperm (List.drop_sublist _ d))
          rw [hms] at hsub
          exact hsub
  · intro h
    rw [h]
    unfold pick
    rw [if_neg (by omega)]
    rw [show fyLoop fuel 0 (data.length - 1) data (make_prng randomness) =
      some (data, make_prng randomness) from rfl]
    dsimp only
    rw [show data.length - 0 = data.length from rfl, List.drop_length]

/-- Witness for C8 at concrete inputs: picking 2 of 4 returns 2 elements
from the input multiset; picking 5 of 4 fails. -/
theorem claim_c8_witness :
    (([2, 1] : List Nat).length = 2 ∧
      (↑([2, 1] : List Nat) : Multiset Nat) ≤ ↑([1, 2, 3, 4] : List Nat)) ∧
    pick 100 (List.replicate 32 7) 5 ([1, 2, 3, 4] : List Nat) = PickResult.nExceedsLen :=
  ⟨(claim_c8 100 (List.replicate 32 7) 2 [1, 2, 3, 4]).2.1 [2, 1] (by decide),
    (claim_c8 100 (List.replicate 32 7) 5 [1, 2, 3, 4]).1.mpr (by decide)⟩

/-- Claim C1: whenever `pick(seed, len(data), data)` returns a list,
`shuffle(seed, data)` returns exactly the same list. -/
theorem claim_c1 {α : Type} (fuel : Nat) (randomness : List Nat) (data : List α) :
    ∀ out, pick fuel randomness data.length data = PickResult.ok out →
      shuffle fuel randomness data = some out := by
  intro out h
  unfold pick at h
  rw [if_neg (by omega)] at h
  cases hlen : data.length with
  | zero =>
    rw [hlen] at h
    rw [show fyLoop fuel 0 (0 - 1) data (make_prng randomness) =
      some (data, make_prng randomness) from rfl] at h
    dsimp only at h
    simp only [PickResult.ok.injEq] at h
    unfold shuffle
    rw [hlen]
    rw [show fyLoop fuel (0 - 1) (0 - 1) data (make_prng randomness) =
      some (data, make_prng randomness) from rfl]
    dsimp only
    rw [← h]
    simp
  | succ m =>
    rw [hlen] at h
    rw [show m + 1 - 1 = m from rfl] at h
    rw [fyLoop_succ fuel m m data (make_prng randomness)] at h
    cases hloop : fyLoop fuel m m data (make_prng randomness) with
    | none =>
      rw [hloop] at h
      cases h
    | some p =>
      obtain ⟨d0, s0⟩ := p
      rw [hloop] at h
      dsimp only at h
      rw [show m - m = 0 from by omega] at h
      cases hg : genIndex fuel 0 s0 with
      | none =>
        rw [hg] at h
        cases h
      | some q =>
        obtain ⟨j, s1⟩ := q
        rw [hg] at h
        dsimp only at h
        simp only [PickResult.ok.injEq] at h
        have hj : j = 0 := genIndex_zero hg
        rw [hj, swapL_self] at h
        unfold shuffle
        rw [hlen]
        rw [show m + 1 - 1 = m from rfl]
        rw [hloop]
        dsimp only
        rw [← h]
        rw [show m + 1 - (m + 1) = 0 from by omega]
        simp

/-- Witness for C1 at a concrete input: picking all 3 of `[1, 2, 3]` and
shuffling it produce the same list `[3, 2, 1]`. -/
theorem claim_c1_witness :
    pick 100 (List.replicate 32 7) 3 ([1, 2, 3] : List Nat) = PickResult.ok [3, 2, 1] ∧
    shuffle 100 (List.replicate 32 7) ([1, 2, 3] : List Nat) = some [3, 2, 1] :=
  ⟨by decide, claim_c1 100 (List.replicate 32 7) [1, 2, 3] [3, 2, 1] (by decide)⟩

/-! ### Claims C4 and C5: weighted selection -/

theorem sumW_cons {α : Type} (x : α × Nat) (l : List (α × Nat)) :
    sumW (x :: l) = x.2 + sumW l := by
  simp [sumW]

theorem sumW_pos {α : Type} (l : List (α × Nat)) (hne : l ≠ [])
    (hw : ∀ p ∈ l, p.2 ≠ 0) : 1 ≤ sumW l := by
  cases l with
  | nil => exact absurd rfl hne
  | cons x rest =>
    rw [sumW_cons]
    have := hw x (List.mem_cons_self _ _)
    omega

theorem totalWeightLoop_ok {α : Type} :
    ∀ (l : List (α × Nat)) (acc : Nat), (∀ p ∈ l, p.2 ≠ 0) →
      acc + sumW l ≤ uMaxN 32 →
      totalWeightLoop l acc = Except.ok (acc + sumW l) := by
  intro l
  induction l with
  | nil =>
    intro acc _ _
    simp [totalWeightLoop, sumW]
  | cons x rest ih =>
    obtain ⟨xa, w⟩ := x
    intro acc hw hmax
    rw [sumW_cons] at hmax ⊢
    have hw0 : w ≠ 0 := hw (xa, w) (List.mem_cons_self _ _)
    simp only [totalWeightLoop]
    rw [if_neg (by simpa using hw0)]
    rw [if_neg (by omega)]
    rw [ih (acc + w) (fun p hp => hw p (List.mem_cons_of_mem _ hp)) (by omega)]
    congr 1
    omega

theorem totalWeightLoop_spec {α : Type} :
    ∀ (l : List (α × Nat)) (acc : Nat),
      (∀ tot, totalWeightLoop l acc = Except.ok tot →
        tot = acc + sumW l ∧ (∀ p ∈ l, p.2 ≠ 0) ∧
          (l = [] ∨ acc + sumW l ≤ uMaxN 32)) ∧
      (∀ msg, totalWeightLoop l acc = Except.error msg →
        (msg = "All element weights should be >= 1" ∧ ∃ p ∈ l, p.2 = 0) ∨
        (msg = "Total weight is greater than maximum value of u32" ∧
          uMaxN 32 < acc + sumW l)) := by
  intro l
  induction l with
  | nil =>
    intro acc
    constructor
    · intro tot h
      simp only [totalWeightLoop, Except.ok.injEq] at h
      simp [sumW, ← h]
    · intro msg h
      simp [totalWeightLoop] at h
  | cons x rest ih =>
    obtain ⟨xa, w⟩ := x
    intro acc
    constructor
    · intro tot h
      simp only [totalWeightLoop] at h
      split at h
      · cases h
      · split at h
        · cases h
        · rename_i hw hmax
          obtain ⟨h1, h2, h3⟩ := (ih (acc + w)).1 tot h
          refine ⟨?_, ?_, Or.inr ?_⟩
          · rw [h1, sumW_cons]
            omega
          · intro p hp
            rcases List.mem_cons.mp hp with rfl | hmem
            · simpa using hw
            · exact h2 p hmem
          · rcases h3 with hrest | hbound
            · rw [hrest] at h1 ⊢
              rw [sumW_cons]
              simp only [sumW, List.map_nil, List.sum_nil]
              omega
            · rw [sumW_cons]
              omega
    · intro msg h
      simp only [totalWeightLoop] at h
      split at h
      · rename_i hw
        simp only [Except.error.injEq] at h
        left
        exact ⟨h.symm, ⟨(xa, w), List.mem_cons_self _ _, hw⟩⟩
      · split at h
        · rename_i hw hmax
          simp only [Except.error.injEq] at h
          right
          refine ⟨h.symm, ?_⟩
          rw [sumW_cons]
          omega
        · rename_i hw hmax
          rcases (ih (acc + w)).2 msg h with ⟨hm, p, hp, hz⟩ | ⟨hm, hbig⟩
          · left
            exact ⟨hm, p, List.mem_cons_of_mem _ hp, hz⟩
          · right
            refine ⟨hm, ?_⟩
            rw [sumW_cons]
            omega

theorem walkWeighted_some {α : Type} :
    ∀ (l : List (α × Nat)) (acc : Nat) (r : Int), l ≠ [] → 1 ≤ r →
      r ≤ ((acc + sumW l : Nat) : Int) → acc + sumW l ≤ uMaxN 32 →
      walkWeighted l r acc ≠ none := by
  intro l
  induction l with
  | nil =>
    intro acc r hne
    exact absurd rfl hne
  | cons x rest ih =>
    obtain ⟨xa, w⟩ := x
    intro acc r hne hr1 hr2 hmax
    rw [sumW_cons] at hr2 hmax
    simp only [walkWeighted]
    have hacc : (acc + w) % 2 ^ 32 = acc + w := by
      refine Nat.mod_eq_of_lt ?_
      unfold uMaxN at hmax
      omega
    rw [hacc]
    split
    · simp
    · rename_i hgt
      cases rest with
      | nil =>
        exfalso
        simp only [sumW, List.map_nil, List.sum_nil] at hr2
        push_cast at hr2 hgt
        omega
      | cons y rest2 =>
        refine ih (acc + w) r (by simp) hr1 ?_ ?_
        · push_cast at hr2 ⊢
          omega
        · omega

/-- Claim C4: `select_from_weighted` returns an `Err` exactly when the list
is empty, some weight is zero, or the total weight exceeds the `u32` range;
the empty list yields exactly the "List must not be empty" error, and every
error message is the documented one for a condition that actually holds. -/
theorem claim_c4 {α : Type} (fuel : Nat) (randomness : List Nat)
    (list : List (α × Nat)) :
    ((select_from_weighted fuel randomness list).isErr = true ↔
      (list = [] ∨ (∃ p ∈ list, p.2 = 0) ∨ uMaxN 32 < sumW list)) ∧
    (select_from_weighted fuel randomness list =
      SelectResult.err ("List must not be empty") ↔ list = []) ∧
    (∀ msg, select_from_weighted fuel randomness list = SelectResult.err msg →
      (msg = "List must not be empty" ∧ list = []) ∨
      (msg = "All element weights should be >= 1" ∧ ∃ p ∈ list, p.2 = 0) ∨
      (msg = "Total weight is greater than maximum value of u32" ∧
        uMaxN 32 < sumW list)) := by
  unfold select_from_weighted
  split
  · rename_i hemp
    have hl : list = [] := by simpa [List.isEmpty_iff] using hemp
    refine ⟨?_, ?_, ?_⟩
    · simp [SelectResult.isErr, hl]
    · simp [hl]
    · intro msg h
      simp only [SelectResult.err.injEq] at h
      left
      exact ⟨h.symm, hl⟩
  · rename_i hemp
    have hl : list ≠ [] := by simpa [List.isEmpty_iff] using hemp
    generalize htw : totalWeightLoop list 0 = res
    cases res with
    | error msg0 =>
      dsimp only
      rcases (totalWeightLoop_spec list 0).2 msg0 htw with ⟨hm, p, hp, hz⟩ | ⟨hm, hbig⟩
      · refine ⟨?_, ?_, ?_⟩
        · simp only [SelectResult.isErr, true_iff]
          exact Or.inr (Or.inl ⟨p, hp, hz⟩)
        · constructor
          · intro hcontra
            simp only [SelectResult.err.injEq] at hcontra
            rw [hm] at hcontra
            exact absurd hcontra (by decide)
          · intro hcontra
            exact absurd hcontra hl
        · intro msg h
          simp only [SelectResult.err.injEq] at h
          right
          left
          rw [← h, hm]
          exact ⟨rfl, p, hp, hz⟩
      · refine ⟨?_, ?_, ?_⟩
        · simp only [SelectResult.isErr, true_iff]
          refine Or.inr (Or.inr ?_)
          omega
        · constructor
          · intro hcontra
            simp only [SelectResult.err.injEq] at hcontra
            rw [hm] at hcontra
            exact absurd hcontra (by decide)
          · intro hcontra
            exact absurd hcontra hl
        · intro msg h
          simp only [SelectResult.err.injEq] at h
          right
          right
          rw [← h, hm]
          refine ⟨rfl, by omega⟩
    | ok total =>
      dsimp only
      obtain ⟨htot, hnz, hmax0⟩ := (totalWeightLoop_spec list 0).1 total htw
      have hmax : sumW list ≤ uMaxN 32 := by
        rcases hmax0 with hLnil | hbound
        · exact absurd hLnil hl
        · omega
      have hcond : ¬ (list = [] ∨ (∃ p ∈ list, p.2 = 0) ∨ uMaxN 32 < sumW list) := by
        push_neg
        exact ⟨hl, fun p hp => hnz p hp, by omega⟩
      generalize hir : int_in_range u32T fuel randomness 1 ((total : Nat) : Int) = ir
      cases ir with
      | emptyRange =>
        dsimp only
        refine ⟨⟨fun hcontra => by simp [SelectResult.isErr] at hcontra,
            fun hrhs => absurd hrhs hcond⟩, ?_, ?_⟩
        · constructor
          · intro h
            cases h
          · intro h
            exact absurd h hl
        · intro msg h
          cases h
      | diverged =>
        dsimp only
        refine ⟨⟨fun hcontra => by simp [SelectResult.isErr] at hcontra,
            fun hrhs => absurd hrhs hcond⟩, ?_, ?_⟩
        · constructor
          · intro h
            cases h
          · intro h
            exact absurd h hl
        · intro msg h
          cases h
      | ok r =>
        dsimp only
        generalize hwalk : walkWeighted list r 0 = wres
        cases wres with
        | some x =>
          dsimp only
          refine ⟨⟨fun hcontra => by simp [SelectResult.isErr] at hcontra,
            fun hrhs => absurd hrhs hcond⟩, ?_, ?_⟩
          · constructor
            · intro h
              cases h
            · intro h
              exact absurd h hl
          · intro msg h
            cases h
        | none =>
          dsimp only
          refine ⟨⟨fun hcontra => by simp [SelectResult.isErr] at hcontra,
            fun hrhs => absurd hrhs hcond⟩, ?_, ?_⟩
          · constructor
            · intro h
              cases h
            · intro h
              exact absurd h hl
          · intro msg h
            cases h

/-- Witness for C4 at concrete inputs: the empty-list error, the
zero-weight error condition, and a valid list that does not error. -/
theorem claim_c4_witness :
    (select_from_weighted 100 (List.replicate 32 7) ([] : List (Nat × Nat)) =
      SelectResult.err ("List must not be empty")) ∧
    ((select_from_weighted 100 (List.replicate 32 7)
      ([(1, 5), (2, 0)] : List (Nat × Nat))).isErr = true) ∧
    ((select_from_weighted 100 (List.replicate 32 7)
      ([(10, 3), (20, 4)] : List (Nat × Nat))).isErr = false) :=
  ⟨(claim_c4 100 (List.replicate 32 7) ([] : List (Nat × Nat))).2.1.mpr rfl,
    (claim_c4 100 (List.replicate 32 7) ([(1, 5), (2, 0)] : List (Nat × Nat))).1.mpr
      (Or.inr (Or.inl ⟨(2, 0), by decide, rfl⟩)),
    by decide⟩

/-- Claim C5: on a weighted list that passes validation (non-empty, all
weights nonzero `u32`s, total within `u32` range), `select_from_weighted`
never reaches the "No element selected" fall-through panic: the draw
`r = int_in_range(1, W)` satisfies `1 ≤ r ≤ W`, the cumulative walk reaches
`W`, so the outcome is a selected element (or, with bounded fuel, a
divergent rejection loop, which never returns). -/
theorem claim_c5 {α : Type} (fuel : Nat) (randomness : List Nat)
    (list : List (α × Nat)) (hv : validWeighted list) :
    select_from_weighted fuel randomness list ≠ SelectResult.panicked ∧
    (select_from_weighted fuel randomness list = SelectResult.diverged ∨
      ∃ x, select_from_weighted fuel randomness list = SelectResult.ok x) := by
  obtain ⟨hne, hwts, hsum⟩ := hv
  have hsum1 : 1 ≤ sumW list := sumW_pos list hne (fun p hp => (hwts p hp).1)
  unfold select_from_weighted
  rw [if_neg (by simp [List.isEmpty_iff, hne])]
  rw [totalWeightLoop_ok list 0 (fun p hp => (hwts p hp).1) (by omega)]
  dsimp only
  have h1le : (1 : Int) ≤ (((0 + sumW list : Nat) : Nat) : Int) := by
    push_cast
    omega
  have hinr1 : u32T.inRange 1 := by decide
  have hinrT : u32T.inRange (((0 + sumW list : Nat) : Nat) : Int) := by
    constructor
    · simp [IntTy.minVal, u32T]
    · show (((0 + sumW list : Nat) : Nat) : Int) ≤ u32T.maxVal
      have : ((0 + sumW list : Nat) : Int) ≤ ((uMaxN 32 : Nat) : Int) := by
        push_cast
        omega
      calc (((0 + sumW list : Nat) : Nat) : Int) ≤ ((uMaxN 32 : Nat) : Int) := this
        _ = u32T.maxVal := by decide
  generalize hir : int_in_range u32T fuel randomness 1 (((0 + sumW list : Nat) : Nat) : Int) = ir
  cases ir with
  | emptyRange =>
    exfalso
    unfold int_in_range at hir
    rw [if_neg (not_not_intro h1le)] at hir
    cases hs : sampleSingleInclusive u32T fuel 1 (((0 + sumW list : Nat) : Nat) : Int)
        (make_prng randomness) with
    | none =>
      rw [hs] at hir
      simp at hir
    | some p =>
      obtain ⟨v0, s0⟩ := p
      rw [hs] at hir
      simp at hir
  | diverged =>
    refine ⟨?_, Or.inl rfl⟩
    intro hcontra
    cases hcontra
  | ok r =>
    dsimp only
    have hrb := int_in_range_ok u32T (by decide) hinr1 hinrT h1le hir
    generalize hwalk : walkWeighted list r 0 = wres
    cases wres with
    | some x =>
      refine ⟨?_, Or.inr ⟨x, rfl⟩⟩
      intro hcontra
      cases hcontra
    | none =>
      exfalso
      refine walkWeighted_some list 0 r hne hrb.1 ?_ (by omega) hwalk
      exact_mod_cast hrb.2

/-- Witness for C5 at a concrete input: a valid two-element weighted list,
on which the outcome is a selected element, not the panic. -/
theorem claim_c5_witness :
    validWeighted ([(10, 3), (20, 4)] : List (Nat × Nat)) ∧
    select_from_weighted 100 (List.replicate 32 7) ([(10, 3), (20, 4)] : List (Nat × Nat)) ≠
      SelectResult.panicked :=
  ⟨by decide,
    (claim_c5 100 (List.replicate 32 7) ([(10, 3), (20, 4)] : List (Nat × Nat))
      (by decide)).1⟩

/-! ### Claim C9: sub-randomness default key -/

/-- Claim C9: at every position `k`, the `k`-th 256-bit output of
`sub_randomness(seed)` equals the `k`-th output of
`sub_randomness_with_key(seed, b"_^default^_")`, for every seed and every
key-hash function (the external `xxh3_128` is abstracted as `hash`). -/
theorem claim_c9 (hash : List Nat → Nat) (randomness : List Nat) (k : Nat) :
    provideAt (sub_randomness hash randomness) k =
      provideAt (sub_randomness_with_key hash randomness defaultKey) k := rfl

/-! ### Claim C10: coinflip -/

/-- Claim C10: `coinflip` returns heads exactly when the first byte of the
randomness is even and tails exactly when it is odd, and the result depends
only on the first byte. -/
theorem claim_c10 (r : List Nat) :
    (coinflip r = Side.heads ↔ (r.headD 0) % 2 = 0) ∧
    (coinflip r = Side.tails ↔ (r.headD 0) % 2 = 1) ∧
    (∀ r' : List Nat, r.headD 0 % 2 = r'.headD 0 % 2 → coinflip r = coinflip r') := by
  have hmod : ∀ x : Nat, x % 256 % 2 = x % 2 := fun x =>
    Nat.mod_mod_of_dvd x (by norm_num)
  have hchar : ∀ s : List Nat, coinflip s = Side.heads ↔ (s.headD 0) % 2 = 0 := by
    intro s
    unfold coinflip
    rw [hmod]
    split
    · rename_i hcond
      exact iff_of_true rfl hcond
    · rename_i hcond
      constructor
      · intro hcontra
        cases hcontra
      · intro hcontra
        exact absurd hcontra hcond
  refine ⟨hchar r, ?_, ?_⟩
  · unfold coinflip
    rw [hmod]
    split
    · rename_i hcond
      constructor
      · intro hcontra
        cases hcontra
      · intro hcontra
        omega
    · rename_i hcond
      simp only [true_iff]
      omega
  · intro r' hsame
    rcases heven : (r.headD 0) % 2 with _ | _
    · have h1 : coinflip r = Side.heads := (hchar r).mpr heven
      have h2 : coinflip r' = Side.heads := (hchar r').mpr (by omega)
      rw [h1, h2]
    · have h1 : ¬ coinflip r = Side.heads := by
        rw [hchar r]
        omega
      have h2 : ¬ coinflip r' = Side.heads := by
        rw [hchar r']
        omega
      cases hc1 : coinflip r with
      | heads => exact absurd hc1 h1
      | tails =>
        cases hc2 : coinflip r' with
        | heads => exact absurd hc2 h2
        | tails => rfl

/-- Witness for C10 at a concrete input: a seed whose first byte is 7. -/
theorem claim_c10_witness :
    coinflip (List.replicate 32 7) = Side.tails ∧ (7 : Nat) % 2 = 1 :=
  ⟨(claim_c10 (List.replicate 32 7)).2.1.mpr (by decide), by decide⟩

/-! ### Claim C6: `ints_in_range` vs sequential single draws -/

/-- Counterexample to C6 as stated: for the all-17 seed and the `u64` range
`[1, 6]`, `ints_in_range` with `count = 1` yields `[1]`, while
`int_in_range` yields `4` — the two samplers use different rejection zones
(exact multiple-of-range versus `range << leading_zeros`), so the single
element does not equal `int_in_range(seed, begin, end)`. -/
theorem claim_c6_counterexample :
    ints_in_range u64T 100 (List.replicate 32 17) 1 1 6 = IntsResult.ok [1] ∧
    int_in_range u64T 100 (List.replicate 32 17) 1 6 = SampleResult.ok 4 ∧
    (1 : Int) ≠ 4 :=
  ⟨by decide, by decide, by decide⟩

theorem distrDrawSeq_eq_intsLoop (t : IntTy) (fuel : Nat) (d : UniformInt) :
    ∀ (count : Nat) (s : Xo),
      distrDrawSeq t fuel d count s = (intsLoop t fuel d count s).map Prod.fst := by
  intro count
  induction count with
  | zero =>
    intro s
    simp [distrDrawSeq, intsLoop]
  | succ k ih =>
    intro s
    simp only [distrDrawSeq, intsLoop]
    cases hds : distrSample t fuel d s with
    | none => rfl
    | some p =>
      obtain ⟨v, s'⟩ := p
      dsimp only
      rw [ih s']
      cases hloop : intsLoop t fuel d k s' with
      | none => rfl
      | some q =>
        obtain ⟨vs, s''⟩ := q
        rfl

theorem sample_small_eq (t : IntTy) (hw16 : t.width ≤ 16) (b e : Int)
    (fuel : Nat) (s : Xo) :
    sampleSingleInclusive t fuel b e s =
      distrSample t fuel
        ⟨b, asTy t ((rangeU t b e : Nat) : Int),
          asTy t (((if 0 < rangeU t b e then
            (uMaxN (uLargeW t) - rangeU t b e + 1) % rangeU t b e else 0) : Nat) : Int)⟩ s := by
  simp only [sampleSingleInclusive, distrSample]
  rw [asUnsigned_asTy_rangeU]
  have hzlt : (if 0 < rangeU t b e then
      (uMaxN (uLargeW t) - rangeU t b e + 1) % rangeU t b e else 0) < 2 ^ t.width := by
    split
    · rename_i hpos
      calc (uMaxN (uLargeW t) - rangeU t b e + 1) % rangeU t b e < rangeU t b e :=
            Nat.mod_lt _ hpos
        _ < 2 ^ t.width := rangeU_lt t b e
    · positivity
  have hz : asUnsigned t (asTy t (((if 0 < rangeU t b e then
      (uMaxN (uLargeW t) - rangeU t b e + 1) % rangeU t b e else 0) : Nat) : Int)) =
      (if 0 < rangeU t b e then
        (uMaxN (uLargeW t) - rangeU t b e + 1) % rangeU t b e else 0) := by
    rw [asUnsigned_asTy]
    exact asUnsigned_ofNat t hzlt
  rw [hz]
  by_cases h0 : rangeU t b e = 0
  · rw [h0]
    simp
  · rw [if_neg h0, if_pos (Nat.pos_of_ne_zero h0), if_pos (Nat.pos_of_ne_zero h0)]
    unfold zoneSingle
    rw [if_pos hw16]

/-- Claim C6, amended: `ints_in_range` equals `count` sequential single
draws sharing one generator state, but the single-draw operation is the
`Uniform` distribution sampler, not `int_in_range`'s
`sample_single_inclusive`; for types of width at most 16 bits the two
samplers coincide, and only then does the `count = 1` element provably
equal `int_in_range(seed, begin, end)` (the counterexample shows they can
differ for wider types). -/
theorem claim_c6 (t : IntTy) (fuel : Nat) (randomness : List Nat)
    (count : Nat) (b e : Int) :
    (ints_in_range t fuel randomness count b e =
      match newInclusive t b e with
      | none => IntsResult.invalidRange
      | some d =>
        match distrDrawSeq t fuel d count (make_prng randomness) with
        | some vs => IntsResult.ok vs
        | none => IntsResult.diverged) ∧
    (t.width ≤ 16 → b ≤ e →
      ∀ v, int_in_range t fuel randomness b e = SampleResult.ok v ↔
        ints_in_range t fuel randomness 1 b e = IntsResult.ok [v]) := by
  constructor
  · unfold ints_in_range
    cases hni : newInclusive t b e with
    | none => rfl
    | some d =>
      dsimp only
      rw [distrDrawSeq_eq_intsLoop]
      cases hloop : intsLoop t fuel d count (make_prng randomness) with
      | none => rfl
      | some q =>
        obtain ⟨vs, s''⟩ := q
        rfl
  · intro hw16 hle v
    unfold int_in_range ints_in_range
    rw [if_neg (not_not_intro hle), newInclusive_eq hle]
    dsimp only
    have hloop1 : ∀ s, intsLoop t fuel
        ⟨b, asTy t ((rangeU t b e : Nat) : Int),
          asTy t (((if 0 < rangeU t b e then
            (uMaxN (uLargeW t) - rangeU t b e + 1) % rangeU t b e else 0) : Nat) : Int)⟩
        1 s =
      match distrSample t fuel
          ⟨b, asTy t ((rangeU t b e : Nat) : Int),
            asTy t (((if 0 < rangeU t b e then
              (uMaxN (uLargeW t) - rangeU t b e + 1) % rangeU t b e else 0) : Nat) : Int)⟩ s with
      | none => none
      | some (v0, s') => some ([v0], s') := by
      intro s
      simp only [intsLoop]
    rw [hloop1]
    rw [sample_small_eq t hw16 b e fuel (make_prng randomness)]
    cases hds : distrSample t fuel
        ⟨b, asTy t ((rangeU t b e : Nat) : Int),
          asTy t (((if 0 < rangeU t b e then
            (uMaxN (uLargeW t) - rangeU t b e + 1) % rangeU t b e else 0) : Nat) : Int)⟩
        (make_prng randomness) with
    | none =>
      dsimp only
      constructor
      · intro hcontra
        cases hcontra
      · intro hcontra
        cases hcontra
    | some p =>
      obtain ⟨v0, s0⟩ := p
      dsimp only
      constructor
      · intro h
        simp only [SampleResult.ok.injEq] at h
        rw [h]
      · intro h
        simp only [IntsResult.ok.injEq, List.cons.injEq] at h
        rw [h.1]

/-- Witness for C6 (amended) at a concrete input: at `u16`, range `[1, 6]`
and the all-7 seed, the single `int_in_range` draw is 1 and
`ints_in_range` with count 1 returns exactly `[1]`. -/
theorem claim_c6_witness :
    u16T.width ≤ 16 ∧ ((1 : Int) ≤ 6) ∧
    ints_in_range u16T 100 (List.replicate 32 7) 1 1 6 = IntsResult.ok [1] :=
  ⟨by decide, by decide,
    ((claim_c6 u16T 100 (List.replicate 32 7) 1 1 6).2 (by decide) (by decide) 1).mp
      (by decide)⟩
